import Mathlib

/-!
Verification development for graphene_django_cud/util.py.

The Python module is embedded shallowly: pure functions become Lean
functions, Python dictionaries become ordered association lists
(insertion keeps the position of an existing key, as Python dicts do),
and fallible code returns Except. External collaborators (the relay
global-id codec, the field reflection source and the two field
converters) are modelled as explicit parameters, since they live
outside the module under verification.
-/

deriving instance DecidableEq for Except

/-- Python exception values that the module can raise. -/
inductive PyErr where
  | graphQLError (msg : String)
  | keyError (key : String)
  | valueError (msg : String)
deriving Repr, DecidableEq

/-- A client-supplied identifier token: a Python int or a Python str
(the `Union[int, float, str]` annotation aside, the claims concern
integers and strings). -/
inductive Token where
  | intTok (n : Int)
  | strTok (s : String)
deriving Repr, DecidableEq

/-- Accumulate a decimal digit string; fails on the first non-digit. -/
def parseDigitsAux : List Char → Nat → Option Nat
  | [], acc => some acc
  | c :: rest, acc =>
    if c.isDigit then parseDigitsAux rest (acc * 10 + (c.toNat - 48)) else none

/-- Model of the Python builtin `int` on a string: an optional sign
followed by a nonempty run of decimal digits; anything else raises
ValueError (here: `none`). -/
def pyStrToInt? (s : String) : Option Int :=
  match s.data with
  | [] => none
  | '-' :: rest => if rest = [] then none else (parseDigitsAux rest 0).map (fun n => -(n : Int))
  | '+' :: rest => if rest = [] then none else (parseDigitsAux rest 0).map (fun n => (n : Int))
  | cs => (parseDigitsAux cs 0).map (fun n => (n : Int))

/-- Model of the Python builtin `int(x)` on a token: an int is returned
unchanged; a string parses per `pyStrToInt?`. -/
def pyIntParse : Token → Option Int
  | .intTok n => some n
  | .strTok s => pyStrToInt? s

/-- The external relay global-id codec (`from_global_id`): given an
encoded token it yields a type name and a local id, or fails on a
malformed token. -/
structure Codec where
  decode : String → Option (String × Int)

/-- Embedding of `disambiguate_id` (util.py lines 14-34).

Source control flow:
  final_id = -1
  try:      final_id = int(ambiguous_id); return final_id
  except ValueError:  (_, final_id) = from_global_id(ambiguous_id)
  finally:  return final_id

Python semantics of `return` inside `finally`: the finally clause runs
last and its `return` replaces any pending return value and swallows
any in-flight exception. Branches:
  1. int parse succeeds with v: the try clause returns v, the finally
     clause then returns final_id, which still equals v.
  2. int parse raises ValueError and the decode succeeds with
     (typeName, n): final_id is rebound to n and the finally clause
     returns n; the type name is discarded.
  3. int parse raises ValueError and the decode raises: the exception
     propagates into the finally clause, whose `return final_id`
     swallows it; final_id was never rebound, so the sentinel -1 is
     returned as a normal value. No error ever escapes. -/
def disambiguate_id (codec : Codec) : Token → Except PyErr Int
  | .intTok n => .ok n
  | .strTok s =>
    match pyStrToInt? s with
    | some v => .ok v
    | none =>
      match codec.decode s with
      | some (_, n) => .ok n
      | none => .ok (-1)

/-- The argument domain of `disambiguate_ids`: a bare int (which has no
`__iter__`), a bare string (which Python iterates character by
character), or a list of tokens. -/
inductive IdsArg where
  | intArg (n : Int)
  | strArg (s : String)
  | listArg (ts : List Token)
deriving Repr, DecidableEq

/-- Embedding of `disambiguate_ids` (util.py lines 37-40).

  if not hasattr(ids, "__iter__"): return [disambiguate_id(ids)]
  return [disambiguate_id(_id) for _id in ids]

A bare int is wrapped in a singleton list. A bare string has
`__iter__`, so the comprehension runs over its characters, each a
one-character string. A list is mapped element by element. -/
def disambiguate_ids (codec : Codec) : IdsArg → Except PyErr (List Int)
  | .intArg n => (disambiguate_id codec (.intTok n)).map (fun v => [v])
  | .strArg s => s.data.mapM (fun c => disambiguate_id codec (.strTok (String.singleton c)))
  | .listArg ts => ts.mapM (disambiguate_id codec)

/-- A codec on which every decode fails: used to exhibit the behaviour
of `disambiguate_id` on undecodable tokens. -/
def codecFailAll : Codec := ⟨fun _ => none⟩

/-- A concrete codec that decodes the token for the spec example
encoded(3) and fails on everything else. -/
def codecEnc3 : Codec := ⟨fun s => if s = "Zm9vOjM=" then some ("foo", 3) else none⟩

/-- Python dict assignment `d[k] = v` on an insertion-ordered dict: an
existing key keeps its position and gets the new value; a new key is
appended at the end. -/
def dictInsert {α : Type} : List (String × α) → String → α → List (String × α)
  | [], k, v => [(k, v)]
  | (k', v') :: rest, k, v =>
    if k' = k then (k, v) :: rest else (k', v') :: dictInsert rest k v

/-- Python `d.get(k)`: the value at the first matching key, or none. -/
def dictGet {α : Type} : List (String × α) → String → Option α
  | [], _ => none
  | (k', v') :: rest, k => if k' = k then some v' else dictGet rest k

/-- An element of a Python iterable handed to `overload_nested_fields`:
either a str or a value of some other type, carried with the display
name of that type (what `type(el)` formats as). -/
inductive PyElem where
  | strElem (s : String)
  | nonStrElem (typeName : String)
deriving Repr, DecidableEq

/-- The argument domain of `overload_nested_fields`: None, a dict, a
non-dict iterable, or anything else (an int, say). -/
inductive NestedArg where
  | noneArg
  | dictArg (m : List (String × List String))
  | iterArg (xs : List PyElem)
  | otherArg
deriving Repr, DecidableEq

/-- The loop of `overload_nested_fields` over an iterable: each string
element is assigned `result[el] = ["all"]`; the first non-string
element raises ValueError naming its type. -/
def overloadLoop : List PyElem → List (String × List String) →
    Except PyErr (List (String × List String))
  | [], acc => .ok acc
  | .strElem s :: rest, acc => overloadLoop rest (dictInsert acc s ["all"])
  | .nonStrElem t :: _, _ =>
    .error (.valueError ("Nested field iterable entry has to be a string. Got " ++ t))

/-- Embedding of `overload_nested_fields` (util.py lines 43-60):
None yields an empty dict, a dict is returned unchanged, an iterable is
expanded name by name to `["all"]` (non-strings raise ValueError), and
anything else yields an empty dict. -/
def overload_nested_fields : NestedArg → Except PyErr (List (String × List String))
  | .noneArg => .ok []
  | .dictArg m => .ok m
  | .iterArg xs => overloadLoop xs []
  | .otherArg => .ok []

/-- Configuration object for one extra operation (Python dict such as
one holding a "type" entry). -/
abbrev ExtraConf := List (String × String)

/-- The value under one operation key of an extras configuration:
boolean shorthand or a configuration object. -/
inductive ExtraData where
  | boolData (b : Bool)
  | confData (c : ExtraConf)
deriving Repr, DecidableEq

/-- The extras of one field: operation name to data, insertion ordered. -/
abbrev M2MOps := List (String × ExtraData)

/-- An extras configuration: field name to operations, insertion
ordered. -/
abbrev M2MExtras := List (String × M2MOps)

/-- Inner loop of `get_m2m_all_extras_field_names`: names derived from
the operations of one field. -/
def m2mInnerNames (name : String) : M2MOps → List String
  | [] => []
  | (extra_name, _) :: rest =>
    (if extra_name ≠ "exact" then name ++ "_" ++ extra_name else name) ::
      m2mInnerNames name rest

/-- Outer loop of `get_m2m_all_extras_field_names`. -/
def m2mNamesLoop : M2MExtras → List String
  | [] => []
  | (name, extra) :: rest => m2mInnerNames name extra ++ m2mNamesLoop rest

/-- Embedding of `get_m2m_all_extras_field_names` (util.py lines
274-285): the `if not extras` guard returns [] for an empty (or
missing) configuration, then the nested loop appends the base name for
"exact" and name + "_" + operation otherwise. -/
def get_m2m_all_extras_field_names (extras : M2MExtras) : List String :=
  if extras = [] then [] else m2mNamesLoop extras

/-- Embedding of `get_fk_all_extras_field_names` (util.py lines
288-292): after the same emptiness guard it returns `extras.keys()`,
the field names only. The body never looks inside the per-field
values, so it is stated over the same extras shape as the m2m
variant. -/
def get_fk_all_extras_field_names (extras : M2MExtras) : List String :=
  if extras = [] then [] else extras.map Prod.fst

/-- Modelled from the spec: flatten an extras configuration into the
list of derived field names it will produce, the base name for an
"exact" operation entry and name + "_" + operation for every other
operation entry. -/
def specDerivedExtrasNames (extras : M2MExtras) : List String :=
  (extras.map (fun p =>
    p.2.map (fun od => if od.1 = "exact" then p.1 else p.1 ++ "_" ++ od.1))).flatten

/-- A reflected model field as seen by this module: its name and its
primary-key flag (`getattr(field, "primary_key", False)`). All other
descriptor content is only ever handed to the external converters, so
it stays opaque here. -/
structure ModelField where
  name : String
  primary_key : Bool
deriving Repr, DecidableEq

/-- Per-field foreign-key extras configuration (a Python dict). -/
abbrev FkConf := List (String × String)

/-- The `foreign_key_extras` argument: field name to configuration. -/
abbrev FkExtras := List (String × FkConf)

/-- The external collaborators of the field-schema builder, bundled:
`model_fields` embeds `get_model_fields(model)` (ordered reflection),
`modelName` embeds what `str(model)` interpolates into error messages,
`convert_field` embeds `convert_django_field_with_choices` with the
global registry folded into the closure, and `convert_m2m` embeds
`convert_many_to_many_field` with the registry, the constant
`required=False` and the constant trailing `None` folded in; a falsy
conversion result is `none`. τ is the type of input-type
descriptors. -/
structure FieldEnv (τ : Type) where
  model_fields : List ModelField
  modelName : String
  convert_field : ModelField → Option Bool → Option ExtraData → FkConf → τ
  convert_m2m : ModelField → ExtraConf → Option τ

/-- `if isinstance(data, bool): data = {}` — boolean shorthand expands
to an empty configuration object. -/
def ExtraData.asConf : ExtraData → ExtraConf
  | .boolData _ => []
  | .confData c => c

/-- Model of `str(name).endswith("+")` (the no-backref sentinel). -/
def endsWithPlus (s : String) : Bool :=
  match s.data.getLast? with
  | some c => c = '+'
  | none => false

/-- The skip test of the base pass (util.py lines 89-94):
`is_not_in_only` (only_fields truthy and name absent from it), or
`is_excluded`, or `is_no_backref`. -/
def shouldSkip (only_fields exclude_fields : List String) (name : String) : Bool :=
  (!only_fields.isEmpty && !only_fields.contains name) ||
    exclude_fields.contains name || endsWithPlus name

/-- The base pass of `get_input_fields_for_model` (util.py lines
79-113): walk the reflected fields in order; skip the primary key
before saving; save every other field into `fields_lookup`; skip
filtered fields; otherwise compute the required tri-state
(None/False/True as Option Bool: optional membership checked first,
required second) and store the converted input type under the field
name. Returns (fields, fields_lookup). -/
def basePass {τ : Type} (env : FieldEnv τ)
    (only_fields exclude_fields optional_fields required_fields : List String)
    (m2m : M2MExtras) (fk : FkExtras) :
    List ModelField → List (String × τ) → List (String × ModelField) →
    List (String × τ) × List (String × ModelField)
  | [], fields, lookup => (fields, lookup)
  | mf :: rest, fields, lookup =>
    if mf.primary_key then
      basePass env only_fields exclude_fields optional_fields required_fields m2m fk
        rest fields lookup
    else
      let lookup2 := dictInsert lookup mf.name mf
      if shouldSkip only_fields exclude_fields mf.name then
        basePass env only_fields exclude_fields optional_fields required_fields m2m fk
          rest fields lookup2
      else
        let required : Option Bool :=
          if optional_fields.contains mf.name then some false
          else if required_fields.contains mf.name then some true
          else none
        let exact := dictGet ((dictGet m2m mf.name).getD []) "exact"
        let fkconf := (dictGet fk mf.name).getD []
        basePass env only_fields exclude_fields optional_fields required_fields m2m fk
          rest (dictInsert fields mf.name (env.convert_field mf required exact fkconf)) lookup2

/-- The inner extras loop (util.py lines 121-144): for each operation
of one field, skip "exact"; expand boolean shorthand; convert a fresh
input type; on a falsy conversion fall back to `fields[name]`, which
raises KeyError when the base field is absent from the output; store
under name + "_" + operation. (The `_type_name` assignment in the
source is dead: assigned and never read.) -/
def extrasInner {τ : Type} (env : FieldEnv τ) (field : ModelField) (name : String) :
    M2MOps → List (String × τ) → Except PyErr (List (String × τ))
  | [], fields => .ok fields
  | (extra_name, data) :: rest, fields =>
    if extra_name = "exact" then extrasInner env field name rest fields
    else
      match env.convert_m2m field data.asConf with
      | some f => extrasInner env field name rest (dictInsert fields (name ++ "_" ++ extra_name) f)
      | none =>
        match dictGet fields name with
        | some f => extrasInner env field name rest (dictInsert fields (name ++ "_" ++ extra_name) f)
        | none => .error (.keyError name)

/-- The outer extras loop (util.py lines 116-146): each entry must name
a field present in `fields_lookup`, else a GraphQLError is raised
(note the literal "f" before the model in the source f-string). -/
def extrasPass {τ : Type} (env : FieldEnv τ) (lookup : List (String × ModelField)) :
    M2MExtras → List (String × τ) → Except PyErr (List (String × τ))
  | [], fields => .ok fields
  | (name, extras) :: rest, fields =>
    match dictGet lookup name with
    | none =>
      .error (.graphQLError ("Error adding extras for " ++ name ++ " in model f" ++
        env.modelName ++ ". Field " ++ name ++ " does not exist."))
    | some field =>
      match extrasInner env field name extras fields with
      | .ok fields2 => extrasPass env lookup rest fields2
      | .error e => .error e

/-- Embedding of `get_input_fields_for_model` (util.py lines 63-146):
the base pass over the reflected fields followed by the
many-to-many-extras pass. `foreign_key_extras` only feeds the
converter. -/
def get_input_fields_for_model {τ : Type} (env : FieldEnv τ)
    (only_fields exclude_fields optional_fields required_fields : List String)
    (m2m : M2MExtras) (fk : FkExtras) : Except PyErr (List (String × τ)) :=
  let res := basePass env only_fields exclude_fields optional_fields required_fields m2m fk
    env.model_fields [] []
  extrasPass env res.2 m2m res.1

/-- The base pass of `get_all_optional_input_fields_for_model`
(util.py lines 162-191): identical to `basePass` except the converter
is always called with the literal `False` (forced optional) and there
are no optional/required parameters. -/
def basePassAllOpt {τ : Type} (env : FieldEnv τ)
    (only_fields exclude_fields : List String) (m2m : M2MExtras) (fk : FkExtras) :
    List ModelField → List (String × τ) → List (String × ModelField) →
    List (String × τ) × List (String × ModelField)
  | [], fields, lookup => (fields, lookup)
  | mf :: rest, fields, lookup =>
    if mf.primary_key then
      basePassAllOpt env only_fields exclude_fields m2m fk rest fields lookup
    else
      let lookup2 := dictInsert lookup mf.name mf
      if shouldSkip only_fields exclude_fields mf.name then
        basePassAllOpt env only_fields exclude_fields m2m fk rest fields lookup2
      else
        let exact := dictGet ((dictGet m2m mf.name).getD []) "exact"
        let fkconf := (dictGet fk mf.name).getD []
        basePassAllOpt env only_fields exclude_fields m2m fk
          rest (dictInsert fields mf.name (env.convert_field mf (some false) exact fkconf)) lookup2

/-- The inner extras loop of the all-optional builder (util.py lines
199-222), a verbatim duplicate of lines 121-144 in the source. -/
def extrasInnerAllOpt {τ : Type} (env : FieldEnv τ) (field : ModelField) (name : String) :
    M2MOps → List (String × τ) → Except PyErr (List (String × τ))
  | [], fields => .ok fields
  | (extra_name, data) :: rest, fields =>
    if extra_name = "exact" then extrasInnerAllOpt env field name rest fields
    else
      match env.convert_m2m field data.asConf with
      | some f =>
        extrasInnerAllOpt env field name rest (dictInsert fields (name ++ "_" ++ extra_name) f)
      | none =>
        match dictGet fields name with
        | some f =>
          extrasInnerAllOpt env field name rest (dictInsert fields (name ++ "_" ++ extra_name) f)
        | none => .error (.keyError name)

/-- The outer extras loop of the all-optional builder (util.py lines
194-222), a verbatim duplicate of lines 116-146 in the source. -/
def extrasPassAllOpt {τ : Type} (env : FieldEnv τ) (lookup : List (String × ModelField)) :
    M2MExtras → List (String × τ) → Except PyErr (List (String × τ))
  | [], fields => .ok fields
  | (name, extras) :: rest, fields =>
    match dictGet lookup name with
    | none =>
      .error (.graphQLError ("Error adding extras for " ++ name ++ " in model f" ++
        env.modelName ++ ". Field " ++ name ++ " does not exist."))
    | some field =>
      match extrasInnerAllOpt env field name extras fields with
      | .ok fields2 => extrasPassAllOpt env lookup rest fields2
      | .error e => .error e

/-- Embedding of `get_all_optional_input_fields_for_model` (util.py
lines 149-224). -/
def get_all_optional_input_fields_for_model {τ : Type} (env : FieldEnv τ)
    (only_fields exclude_fields : List String)
    (m2m : M2MExtras) (fk : FkExtras) : Except PyErr (List (String × τ)) :=
  let res := basePassAllOpt env only_fields exclude_fields m2m fk env.model_fields [] []
  extrasPassAllOpt env res.2 m2m res.1

/-- The filtering the spec invariant speaks about: a reflected field
that is not the primary key and is not skipped by
only/exclude/no-backref. -/
def passesFiltering (only_fields exclude_fields : List String) (mf : ModelField) : Prop :=
  mf.primary_key = false ∧ shouldSkip only_fields exclude_fields mf.name = false

instance (only_fields exclude_fields : List String) (mf : ModelField) :
    Decidable (passesFiltering only_fields exclude_fields mf) := by
  unfold passesFiltering
  infer_instance

/-- A concrete environment used for counterexamples and witnesses: a
model with a primary key "id" and a many-to-many field "tags", a
converter returning descriptor 1 and a many-to-many converter
returning descriptor 2. -/
def envTags : FieldEnv Nat :=
  { model_fields := [⟨"id", true⟩, ⟨"tags", false⟩]
    modelName := "M"
    convert_field := fun _ _ _ _ => 1
    convert_m2m := fun _ _ => some 2 }

/-- A concrete environment whose model has only its primary key. -/
def envNoFields : FieldEnv Nat :=
  { model_fields := [⟨"id", true⟩]
    modelName := "M"
    convert_field := fun _ _ _ _ => 1
    convert_m2m := fun _ _ => some 2 }

/-- The required/optional tri-state of util.py lines 100-104 as a
standalone value: None unless the name is listed, optional membership
checked before required membership. -/
def triState (opt req : List String) (n : String) : Option Bool :=
  if opt.contains n then some false
  else if req.contains n then some true
  else none

/-- An instrumented environment over the given reflected fields: the
field converter returns the tri-state it was handed, so the output
mapping records exactly what the builder passed to the converter. -/
def triEnv (fs : List ModelField) : FieldEnv (Option Bool) :=
  { model_fields := fs
    modelName := "M"
    convert_field := fun _ required _ _ => required
    convert_m2m := fun _ _ => none }

/-- `disambiguate_id` never raises: the `return` inside `finally`
guarantees a normal value on every path. -/
theorem disambiguate_id_total (codec : Codec) (t : Token) :
    ∃ v : Int, disambiguate_id codec t = .ok v := by
  cases t with
  | intTok n => exact ⟨n, rfl⟩
  | strTok s =>
    simp only [disambiguate_id]
    cases h : pyStrToInt? s with
    | some v => exact ⟨v, rfl⟩
    | none =>
      cases h2 : codec.decode s with
      | some p => exact ⟨p.2, rfl⟩
      | none => exact ⟨-1, rfl⟩

/-- C1 counterexample: on the token "xyz" the integer parse fails and
the decode fails, yet `disambiguate_id` returns the fallback value -1
as a normal result instead of propagating an error. -/
theorem c1_counterexample :
    pyIntParse (.strTok "xyz") = none ∧
    codecFailAll.decode "xyz" = none ∧
    disambiguate_id codecFailAll (.strTok "xyz") = .ok (-1) := by
  refine ⟨by decide, rfl, by decide⟩

/-- C1 (amended): for every token whose integer parse fails and whose
global-id decoding also fails, the decode failure is swallowed by the
`return` inside `finally` and `disambiguate_id` returns the sentinel
fallback value -1 as a normal result; no error reaches the caller. -/
theorem c1_swallowed (codec : Codec) (s : String)
    (hparse : pyIntParse (.strTok s) = none)
    (hdec : codec.decode s = none) :
    disambiguate_id codec (.strTok s) = .ok (-1) := by
  simp only [pyIntParse] at hparse
  simp only [disambiguate_id, hparse, hdec]

/-- C1 witness: the amended theorem applied at the concrete token
"xyz" with the always-failing codec. -/
theorem c1_swallowed_witness :
    disambiguate_id codecFailAll (.strTok "xyz") = .ok (-1) :=
  c1_swallowed codecFailAll "xyz" (by decide) rfl

/-- C4: for every token whose integer parse succeeds with value v,
`disambiguate_id` returns v; and for every string token whose integer
parse fails and which the codec decodes to (typeName, n),
`disambiguate_id` returns the local id n, discarding the type name. -/
theorem c4_disambiguate_id_correct :
    (∀ (codec : Codec) (t : Token) (v : Int),
      pyIntParse t = some v → disambiguate_id codec t = .ok v) ∧
    (∀ (codec : Codec) (s : String) (ty : String) (n : Int),
      pyIntParse (.strTok s) = none → codec.decode s = some (ty, n) →
      disambiguate_id codec (.strTok s) = .ok n) := by
  constructor
  · intro codec t v hp
    cases t with
    | intTok m =>
      simp only [pyIntParse, Option.some.injEq] at hp
      simp [disambiguate_id, hp]
    | strTok s =>
      simp only [pyIntParse] at hp
      simp [disambiguate_id, hp]
  · intro codec s ty n hp hd
    simp only [pyIntParse] at hp
    simp [disambiguate_id, hp, hd]

/-- C4 witness: integer parse path at the numeric string "42" and the
int 7, decode path at the encoded token for 3. -/
theorem c4_disambiguate_id_correct_witness :
    disambiguate_id codecEnc3 (.strTok "42") = .ok 42 ∧
    disambiguate_id codecEnc3 (.intTok 7) = .ok 7 ∧
    disambiguate_id codecEnc3 (.strTok "Zm9vOjM=") = .ok 3 :=
  ⟨c4_disambiguate_id_correct.1 codecEnc3 (.strTok "42") 42 (by decide),
   c4_disambiguate_id_correct.1 codecEnc3 (.intTok 7) 7 rfl,
   c4_disambiguate_id_correct.2 codecEnc3 "Zm9vOjM=" "foo" 3 (by decide) (by decide)⟩

/-- C7: a bare int n (non-iterable) is wrapped: the result is the
one-element list holding `disambiguate_id` of it. A list argument is
mapped element by element in order: the call always succeeds, the
output has the length of the input, and position i of the output is
`disambiguate_id` of position i of the input. The spec example
[1, "2", encoded(3)] yields [1, 2, 3]. -/
theorem c7_disambiguate_ids_correct :
    (∀ (codec : Codec) (n : Int),
      disambiguate_id codec (.intTok n) = .ok n ∧
      disambiguate_ids codec (.intArg n) = .ok [n]) ∧
    (∀ (codec : Codec) (ts : List Token),
      ∃ vs : List Int, disambiguate_ids codec (.listArg ts) = .ok vs ∧
        vs.length = ts.length ∧
        ∀ (i : Nat) (h1 : i < ts.length) (h2 : i < vs.length),
          disambiguate_id codec (ts.get ⟨i, h1⟩) = .ok (vs.get ⟨i, h2⟩)) ∧
    disambiguate_ids codecEnc3
      (.listArg [.intTok 1, .strTok "2", .strTok "Zm9vOjM="]) = .ok [1, 2, 3] := by
  refine ⟨fun codec n => ⟨rfl, rfl⟩, ?_, by decide⟩
  intro codec ts
  induction ts with
  | nil => exact ⟨[], rfl, rfl, fun i h1 h2 => absurd h1 (Nat.not_lt_zero i)⟩
  | cons t rest ih =>
    obtain ⟨vs, hvs, hlen, helem⟩ := ih
    obtain ⟨v, hv⟩ := disambiguate_id_total codec t
    refine ⟨v :: vs, ?_, by simpa using hlen, ?_⟩
    · simp only [disambiguate_ids, List.mapM_cons, hv]
      simp only [disambiguate_ids] at hvs
      rw [hvs]
      rfl
    · intro i h1 h2
      cases i with
      | zero => simpa using hv
      | succ j =>
        simp only [List.get_cons_succ]
        exact helem j (Nat.lt_of_succ_lt_succ h1) (Nat.lt_of_succ_lt_succ h2)

/-- C7 witness: the list part applied at the concrete list [5]. -/
theorem c7_disambiguate_ids_correct_witness :
    ∃ vs : List Int, disambiguate_ids codecEnc3 (.listArg [.intTok 5]) = .ok vs ∧
      vs.length = 1 ∧
      ∀ (i : Nat) (h1 : i < 1) (h2 : i < vs.length),
        disambiguate_id codecEnc3 ([Token.intTok 5].get ⟨i, h1⟩) = .ok (vs.get ⟨i, h2⟩) :=
  c7_disambiguate_ids_correct.2.1 codecEnc3 [.intTok 5]

theorem mem_keys_dictInsert {α : Type} (d : List (String × α)) (k a : String) (v : α) :
    a ∈ (dictInsert d k v).map Prod.fst ↔ a = k ∨ a ∈ d.map Prod.fst := by
  induction d with
  | nil => simp [dictInsert]
  | cons p rest ih =>
    by_cases h : p.1 = k
    · rcases p with ⟨k', v'⟩
      simp only at h
      simp [dictInsert, h]
    · rcases p with ⟨k', v'⟩
      simp only at h
      simp only [dictInsert, if_neg h, List.map_cons, List.mem_cons, ih]
      tauto

theorem mem_dictInsert {α : Type} (d : List (String × α)) (k : String) (v : α)
    (p : String × α) (hp : p ∈ dictInsert d k v) : p = (k, v) ∨ p ∈ d := by
  induction d with
  | nil => simpa [dictInsert] using hp
  | cons q rest ih =>
    rcases q with ⟨k', v'⟩
    by_cases h : k' = k
    · simp only [dictInsert, if_pos h, List.mem_cons] at hp
      rcases hp with hp | hp
      · exact Or.inl hp
      · exact Or.inr (List.mem_cons_of_mem _ hp)
    · simp only [dictInsert, if_neg h, List.mem_cons] at hp
      rcases hp with hp | hp
      · exact Or.inr (by simp [hp])
      · rcases ih hp with hp | hp
        · exact Or.inl hp
        · exact Or.inr (List.mem_cons_of_mem _ hp)

theorem overloadLoop_ok_of_strings (xs : List PyElem)
    (hstr : ∀ x ∈ xs, ∃ s, x = PyElem.strElem s) :
    ∀ acc, ∃ d, overloadLoop xs acc = .ok d ∧
      (∀ p ∈ d, p ∈ acc ∨ p.2 = ["all"]) ∧
      (∀ s, s ∈ d.map Prod.fst ↔ s ∈ acc.map Prod.fst ∨ PyElem.strElem s ∈ xs) := by
  induction xs with
  | nil => exact fun acc => ⟨acc, rfl, fun p hp => Or.inl hp, by simp⟩
  | cons x rest ih =>
    intro acc
    obtain ⟨s0, rfl⟩ := hstr x (List.mem_cons_self x rest)
    obtain ⟨d, hd, hvals, hkeys⟩ :=
      ih (fun y hy => hstr y (List.mem_cons_of_mem _ hy)) (dictInsert acc s0 ["all"])
    refine ⟨d, hd, ?_, ?_⟩
    · intro p hp
      rcases hvals p hp with hp2 | hp2
      · rcases mem_dictInsert acc s0 ["all"] p hp2 with h | h
        · exact Or.inr (by rw [h])
        · exact Or.inl h
      · exact Or.inr hp2
    · intro s
      rw [hkeys s, mem_keys_dictInsert]
      simp only [List.mem_cons, PyElem.strElem.injEq]
      tauto

theorem overloadLoop_error_at_first (pre : List PyElem) (t : String)
    (hstr : ∀ x ∈ pre, ∃ s, x = PyElem.strElem s) :
    ∀ (rest : List PyElem) (acc : List (String × List String)),
      overloadLoop (pre ++ .nonStrElem t :: rest) acc =
        .error (.valueError ("Nested field iterable entry has to be a string. Got " ++ t)) := by
  induction pre with
  | nil => intro rest acc; rfl
  | cons x pre2 ih =>
    intro rest acc
    obtain ⟨s0, rfl⟩ := hstr x (List.mem_cons_self x pre2)
    exact ih (fun y hy => hstr y (List.mem_cons_of_mem _ hy)) rest (dictInsert acc s0 ["all"])

/-- C6: `overload_nested_fields` maps None to the empty mapping,
returns a dict unchanged, expands an all-string iterable to a mapping
whose every value is ["all"] and whose keys are exactly the listed
names, raises ValueError naming the type of the first non-string
entry of an iterable, and maps anything else to the empty mapping. -/
theorem c6_overload_nested_fields :
    overload_nested_fields .noneArg = .ok [] ∧
    (∀ m, overload_nested_fields (.dictArg m) = .ok m) ∧
    (∀ xs, (∀ x ∈ xs, ∃ s, x = PyElem.strElem s) →
      ∃ d, overload_nested_fields (.iterArg xs) = .ok d ∧
        (∀ p ∈ d, p.2 = ["all"]) ∧
        (∀ s, s ∈ d.map Prod.fst ↔ PyElem.strElem s ∈ xs)) ∧
    (∀ (pre rest : List PyElem) (t : String),
      (∀ x ∈ pre, ∃ s, x = PyElem.strElem s) →
      overload_nested_fields (.iterArg (pre ++ .nonStrElem t :: rest)) =
        .error (.valueError ("Nested field iterable entry has to be a string. Got " ++ t))) ∧
    overload_nested_fields .otherArg = .ok [] := by
  refine ⟨rfl, fun m => rfl, ?_, ?_, rfl⟩
  · intro xs hstr
    obtain ⟨d, hd, hvals, hkeys⟩ := overloadLoop_ok_of_strings xs hstr []
    refine ⟨d, hd, ?_, ?_⟩
    · intro p hp
      rcases hvals p hp with h | h
      · simp at h
      · exact h
    · intro s
      rw [hkeys s]
      simp
  · intro pre rest t hstr
    exact overloadLoop_error_at_first pre t hstr rest []

/-- C6 witness: the spec examples, via the theorem at concrete
arguments: normalize(["a","b"]) succeeds with both keys mapping to
["all"], and normalize([nonstring of type int]) raises. -/
theorem c6_overload_nested_fields_witness :
    (∃ d, overload_nested_fields (.iterArg [.strElem "a", .strElem "b"]) = .ok d ∧
      (∀ p ∈ d, p.2 = ["all"]) ∧
      (∀ s, s ∈ d.map Prod.fst ↔
        PyElem.strElem s ∈ [PyElem.strElem "a", PyElem.strElem "b"])) ∧
    overload_nested_fields (.iterArg [.nonStrElem "int"]) =
      .error (.valueError ("Nested field iterable entry has to be a string. Got " ++ "int")) :=
  ⟨c6_overload_nested_fields.2.2.1 [.strElem "a", .strElem "b"]
      (by
        intro x hx
        simp only [List.mem_cons, List.not_mem_nil, or_false] at hx
        rcases hx with rfl | rfl <;> exact ⟨_, rfl⟩),
   c6_overload_nested_fields.2.2.2.1 [] [] "int" (by intro x hx; cases hx)⟩

/-- C3 counterexample: on the configuration {"owner": {"add": True}}
the spec-derived name list is ["owner_add"], but
`get_fk_all_extras_field_names` returns only the base key ["owner"]. -/
theorem c3_counterexample :
    get_fk_all_extras_field_names [("owner", [("add", .boolData true)])] = ["owner"] ∧
    specDerivedExtrasNames [("owner", [("add", .boolData true)])] = ["owner_add"] ∧
    ("owner" : String) ≠ "owner_add" := by
  refine ⟨by decide, by decide, by decide⟩

theorem m2mInnerNames_eq (name : String) (ops : M2MOps) :
    m2mInnerNames name ops =
      ops.map (fun od => if od.1 = "exact" then name else name ++ "_" ++ od.1) := by
  induction ops with
  | nil => rfl
  | cons od rest ih =>
    rcases od with ⟨op, d⟩
    by_cases h : op = "exact"
    · simp [m2mInnerNames, h, ih]
    · simp [m2mInnerNames, h, ih]

/-- C3 (amended): `get_m2m_all_extras_field_names` returns exactly the
spec-derived name list (base name for "exact", name + "_" + operation
otherwise); `get_fk_all_extras_field_names` instead returns only the
keys of the configuration, the base field names, regardless of the
operations declared under them. -/
theorem c3_extras_field_names :
    (∀ extras : M2MExtras,
      get_m2m_all_extras_field_names extras = specDerivedExtrasNames extras) ∧
    (∀ extras : M2MExtras, get_fk_all_extras_field_names extras = extras.map Prod.fst) := by
  constructor
  · intro extras
    unfold get_m2m_all_extras_field_names
    by_cases h : extras = []
    · subst h; rfl
    · rw [if_neg h]
      clear h
      induction extras with
      | nil => rfl
      | cons p rest ih =>
        rcases p with ⟨name, ops⟩
        simp only [m2mNamesLoop, specDerivedExtrasNames, List.map_cons, List.flatten_cons]
        rw [m2mInnerNames_eq, ih]
        rfl
  · intro extras
    unfold get_fk_all_extras_field_names
    by_cases h : extras = []
    · subst h; rfl
    · rw [if_neg h]

/-- C10: a bare string counts as iterable, so `disambiguate_ids`
disambiguates each character separately: "12" yields [1, 2] for every
codec, not the wrapped [12]. -/
theorem c10_string_iterated (codec : Codec) :
    disambiguate_ids codec (.strArg "12") = .ok [1, 2] ∧ [(1 : Int), 2] ≠ [12] := by
  constructor
  · show List.mapM (fun c => disambiguate_id codec (.strTok (String.singleton c))) "12".data =
      .ok [1, 2]
    have h12 : "12".data = ['1', '2'] := by decide
    rw [h12]
    simp only [List.mapM_cons, List.mapM_nil]
    have hp1 : pyStrToInt? (String.singleton '1') = some 1 := by decide
    have hp2 : pyStrToInt? (String.singleton '2') = some 2 := by decide
    have h1 : disambiguate_id codec (.strTok (String.singleton '1')) = .ok 1 := by
      simp only [disambiguate_id, hp1]
    have h2 : disambiguate_id codec (.strTok (String.singleton '2')) = .ok 2 := by
      simp only [disambiguate_id, hp2]
    rw [h1, h2]
    rfl
  · decide

theorem dictGet_dictInsert {α : Type} (d : List (String × α)) (k k2 : String) (v : α) :
    dictGet (dictInsert d k v) k2 = if k = k2 then some v else dictGet d k2 := by
  induction d with
  | nil => simp [dictInsert, dictGet]
  | cons p rest ih =>
    rcases p with ⟨k3, v3⟩
    by_cases h : k3 = k
    · subst h
      by_cases h2 : k3 = k2
      · subst h2; simp [dictInsert, dictGet]
      · simp [dictInsert, dictGet, h2]
    · by_cases h2 : k3 = k2
      · subst h2
        have hne : ¬(k = k3) := fun he => h he.symm
        simp [dictInsert, dictGet, h, hne]
      · simp [dictInsert, dictGet, h, h2, ih]

theorem dictGet_none_iff {α : Type} (d : List (String × α)) (k : String) :
    dictGet d k = none ↔ k ∉ d.map Prod.fst := by
  induction d with
  | nil => simp [dictGet]
  | cons p rest ih =>
    rcases p with ⟨k2, v2⟩
    by_cases h : k2 = k
    · subst h; simp [dictGet]
    · simp only [dictGet, if_neg h, List.map_cons, List.mem_cons]
      rw [ih]
      constructor
      · intro hk
        rintro (he | hm)
        · exact h he.symm
        · exact hk hm
      · exact fun hk hm => hk (Or.inr hm)

theorem mem_keys_of_dictGet_some {α : Type} {d : List (String × α)} {k : String} {v : α}
    (h : dictGet d k = some v) : k ∈ d.map Prod.fst := by
  by_contra hk
  rw [← dictGet_none_iff] at hk
  rw [h] at hk
  cases hk

theorem contains_of_mem {l : List String} {a : String} (h : a ∈ l) : l.contains a = true := by
  induction l with
  | nil => cases h
  | cons b rest ih =>
    rcases List.mem_cons.1 h with rfl | h2
    · simp
    · simp only [List.contains_cons, Bool.or_eq_true]
      exact Or.inr (ih h2)

theorem basePass_fields_keys {τ : Type} (env : FieldEnv τ)
    (only excl opt req : List String) (m2m : M2MExtras) (fk : FkExtras) (k : String) :
    ∀ (fs : List ModelField) (fields : List (String × τ)) (lookup : List (String × ModelField)),
      k ∈ ((basePass env only excl opt req m2m fk fs fields lookup).1).map Prod.fst →
      k ∈ fields.map Prod.fst ∨ ∃ mf ∈ fs, passesFiltering only excl mf ∧ k = mf.name := by
  intro fs
  induction fs with
  | nil => exact fun fields lookup h => Or.inl h
  | cons mf rest ih =>
    intro fields lookup h
    cases hpk : mf.primary_key with
    | true =>
      rw [basePass, if_pos hpk] at h
      rcases ih _ _ h with h2 | ⟨mf2, hm, hp, hk⟩
      · exact Or.inl h2
      · exact Or.inr ⟨mf2, List.mem_cons_of_mem _ hm, hp, hk⟩
    | false =>
      rw [basePass, if_neg (by rw [hpk]; exact Bool.false_ne_true)] at h
      cases hsk : shouldSkip only excl mf.name with
      | true =>
        rw [if_pos hsk] at h
        rcases ih _ _ h with h2 | ⟨mf2, hm, hp, hk⟩
        · exact Or.inl h2
        · exact Or.inr ⟨mf2, List.mem_cons_of_mem _ hm, hp, hk⟩
      | false =>
        rw [if_neg (by rw [hsk]; exact Bool.false_ne_true)] at h
        rcases ih _ _ h with h2 | ⟨mf2, hm, hp, hk⟩
        · rcases (mem_keys_dictInsert _ _ _ _).1 h2 with h3 | h3
          · exact Or.inr ⟨mf, List.mem_cons_self _ _, ⟨hpk, hsk⟩, h3⟩
          · exact Or.inl h3
        · exact Or.inr ⟨mf2, List.mem_cons_of_mem _ hm, hp, hk⟩

theorem basePass_lookup_keys {τ : Type} (env : FieldEnv τ)
    (only excl opt req : List String) (m2m : M2MExtras) (fk : FkExtras) (k : String) :
    ∀ (fs : List ModelField) (fields : List (String × τ)) (lookup : List (String × ModelField)),
      k ∈ ((basePass env only excl opt req m2m fk fs fields lookup).2).map Prod.fst →
      k ∈ lookup.map Prod.fst ∨ ∃ mf ∈ fs, mf.primary_key = false ∧ k = mf.name := by
  intro fs
  induction fs with
  | nil => exact fun fields lookup h => Or.inl h
  | cons mf rest ih =>
    intro fields lookup h
    cases hpk : mf.primary_key with
    | true =>
      rw [basePass, if_pos hpk] at h
      rcases ih _ _ h with h2 | ⟨mf2, hm, hp, hk⟩
      · exact Or.inl h2
      · exact Or.inr ⟨mf2, List.mem_cons_of_mem _ hm, hp, hk⟩
    | false =>
      rw [basePass, if_neg (by rw [hpk]; exact Bool.false_ne_true)] at h
      have step : ∀ h2 : k ∈ (dictInsert lookup mf.name mf).map Prod.fst,
          k ∈ lookup.map Prod.fst ∨ ∃ mf2 ∈ mf :: rest, mf2.primary_key = false ∧ k = mf2.name := by
        intro h2
        rcases (mem_keys_dictInsert _ _ _ _).1 h2 with h3 | h3
        · exact Or.inr ⟨mf, List.mem_cons_self _ _, hpk, h3⟩
        · exact Or.inl h3
      cases hsk : shouldSkip only excl mf.name with
      | true =>
        rw [if_pos hsk] at h
        rcases ih _ _ h with h2 | ⟨mf2, hm, hp, hk⟩
        · exact step h2
        · exact Or.inr ⟨mf2, List.mem_cons_of_mem _ hm, hp, hk⟩
      | false =>
        rw [if_neg (by rw [hsk]; exact Bool.false_ne_true)] at h
        rcases ih _ _ h with h2 | ⟨mf2, hm, hp, hk⟩
        · exact step h2
        · exact Or.inr ⟨mf2, List.mem_cons_of_mem _ hm, hp, hk⟩

theorem extrasInner_mono {τ : Type} (env : FieldEnv τ) (field : ModelField) (name k : String) :
    ∀ (ops : M2MOps) (fields out : List (String × τ)),
      extrasInner env field name ops fields = .ok out →
      k ∈ fields.map Prod.fst → k ∈ out.map Prod.fst := by
  intro ops
  induction ops with
  | nil =>
    intro fields out hok hk
    simp only [extrasInner, Except.ok.injEq] at hok
    subst hok
    exact hk
  | cons od rest ih =>
    intro fields out hok hk
    rcases od with ⟨op, data⟩
    by_cases hex : op = "exact"
    · rw [extrasInner, if_pos hex] at hok
      exact ih _ _ hok hk
    · rw [extrasInner, if_neg hex] at hok
      cases hcm : env.convert_m2m field data.asConf with
      | some f =>
        rw [hcm] at hok
        exact ih _ _ hok ((mem_keys_dictInsert _ _ _ _).2 (Or.inr hk))
      | none =>
        rw [hcm] at hok
        cases hg : dictGet fields name with
        | some f =>
          rw [hg] at hok
          exact ih _ _ hok ((mem_keys_dictInsert _ _ _ _).2 (Or.inr hk))
        | none =>
          rw [hg] at hok
          simp at hok

theorem extrasInner_adds {τ : Type} (env : FieldEnv τ) (field : ModelField) (name : String) :
    ∀ (ops : M2MOps) (fields out : List (String × τ)),
      extrasInner env field name ops fields = .ok out →
      ∀ (op : String) (d : ExtraData), (op, d) ∈ ops → op ≠ "exact" →
      (name ++ "_" ++ op) ∈ out.map Prod.fst := by
  intro ops
  induction ops with
  | nil =>
    intro fields out hok op d hm
    cases hm
  | cons od rest ih =>
    intro fields out hok op d hm hne
    rcases od with ⟨op0, d0⟩
    by_cases hex : op0 = "exact"
    · rw [extrasInner, if_pos hex] at hok
      rcases List.mem_cons.1 hm with heq | hm2
      · exact absurd (congrArg Prod.fst heq) (by simpa [hex] using hne)
      · exact ih _ _ hok op d hm2 hne
    · rw [extrasInner, if_neg hex] at hok
      have key_step : ∀ (f : τ) (hok2 : extrasInner env field name rest
          (dictInsert fields (name ++ "_" ++ op0) f) = .ok out),
          (name ++ "_" ++ op) ∈ out.map Prod.fst := by
        intro f hok2
        rcases List.mem_cons.1 hm with heq | hm2
        · have hop : op = op0 := congrArg Prod.fst heq
          subst hop
          exact extrasInner_mono env field name _ _ _ _ hok2
            ((mem_keys_dictInsert _ _ _ _).2 (Or.inl rfl))
        · exact ih _ _ hok2 op d hm2 hne
      cases hcm : env.convert_m2m field d0.asConf with
      | some f =>
        rw [hcm] at hok
        exact key_step f hok
      | none =>
        rw [hcm] at hok
        cases hg : dictGet fields name with
        | some f =>
          rw [hg] at hok
          exact key_step f hok
        | none =>
          rw [hg] at hok
          simp at hok

theorem extrasInner_keys {τ : Type} (env : FieldEnv τ) (field : ModelField) (name k : String) :
    ∀ (ops : M2MOps) (fields out : List (String × τ)),
      extrasInner env field name ops fields = .ok out →
      k ∈ out.map Prod.fst →
      k ∈ fields.map Prod.fst ∨ ∃ od ∈ ops, od.1 ≠ "exact" ∧ k = name ++ "_" ++ od.1 := by
  intro ops
  induction ops with
  | nil =>
    intro fields out hok hk
    simp only [extrasInner, Except.ok.injEq] at hok
    subst hok
    exact Or.inl hk
  | cons od rest ih =>
    intro fields out hok hk
    rcases od with ⟨op0, d0⟩
    by_cases hex : op0 = "exact"
    · rw [extrasInner, if_pos hex] at hok
      rcases ih _ _ hok hk with h2 | ⟨od2, hm2, hne2, hk2⟩
      · exact Or.inl h2
      · exact Or.inr ⟨od2, List.mem_cons_of_mem _ hm2, hne2, hk2⟩
    · rw [extrasInner, if_neg hex] at hok
      have key_step : ∀ (f : τ) (hok2 : extrasInner env field name rest
          (dictInsert fields (name ++ "_" ++ op0) f) = .ok out),
          k ∈ fields.map Prod.fst ∨
            ∃ od ∈ (op0, d0) :: rest, od.1 ≠ "exact" ∧ k = name ++ "_" ++ od.1 := by
        intro f hok2
        rcases ih _ _ hok2 hk with h2 | ⟨od2, hm2, hne2, hk2⟩
        · rcases (mem_keys_dictInsert _ _ _ _).1 h2 with h3 | h3
          · exact Or.inr ⟨(op0, d0), List.mem_cons_self _ _, hex, h3⟩
          · exact Or.inl h3
        · exact Or.inr ⟨od2, List.mem_cons_of_mem _ hm2, hne2, hk2⟩
      cases hcm : env.convert_m2m field d0.asConf with
      | some f =>
        rw [hcm] at hok
        exact key_step f hok
      | none =>
        rw [hcm] at hok
        cases hg : dictGet fields name with
        | some f =>
          rw [hg] at hok
          exact key_step f hok
        | none =>
          rw [hg] at hok
          simp at hok

theorem extrasPass_cons_some {τ : Type} (env : FieldEnv τ)
    (lookup : List (String × ModelField)) (nm : String) (ops : M2MOps)
    (rest : M2MExtras) (fields : List (String × τ)) (field : ModelField)
    (hg : dictGet lookup nm = some field) :
    extrasPass env lookup ((nm, ops) :: rest) fields =
      match extrasInner env field nm ops fields with
      | .ok fields2 => extrasPass env lookup rest fields2
      | .error e => .error e := by
  rw [extrasPass, hg]

theorem extrasPass_cons_none {τ : Type} (env : FieldEnv τ)
    (lookup : List (String × ModelField)) (nm : String) (ops : M2MOps)
    (rest : M2MExtras) (fields : List (String × τ))
    (hg : dictGet lookup nm = none) :
    extrasPass env lookup ((nm, ops) :: rest) fields =
      .error (.graphQLError ("Error adding extras for " ++ nm ++ " in model f" ++
        env.modelName ++ ". Field " ++ nm ++ " does not exist.")) := by
  rw [extrasPass, hg]

theorem extrasPass_mono {τ : Type} (env : FieldEnv τ) (lookup : List (String × ModelField))
    (k : String) :
    ∀ (ms : M2MExtras) (fields out : List (String × τ)),
      extrasPass env lookup ms fields = .ok out →
      k ∈ fields.map Prod.fst → k ∈ out.map Prod.fst := by
  intro ms
  induction ms with
  | nil =>
    intro fields out hok hk
    simp only [extrasPass, Except.ok.injEq] at hok
    subst hok
    exact hk
  | cons p rest ih =>
    intro fields out hok hk
    rcases p with ⟨nm, ops⟩
    cases hg : dictGet lookup nm with
    | none =>
      rw [extrasPass_cons_none env lookup nm ops rest fields hg] at hok
      simp at hok
    | some field =>
      rw [extrasPass_cons_some env lookup nm ops rest fields field hg] at hok
      cases hin : extrasInner env field nm ops fields with
      | ok fields2 =>
        rw [hin] at hok
        exact ih _ _ hok (extrasInner_mono env field nm k ops fields fields2 hin hk)
      | error e =>
        rw [hin] at hok
        simp at hok

theorem extrasPass_adds {τ : Type} (env : FieldEnv τ) (lookup : List (String × ModelField)) :
    ∀ (ms : M2MExtras) (fields out : List (String × τ)),
      extrasPass env lookup ms fields = .ok out →
      ∀ (nm : String) (ops : M2MOps) (op : String) (d : ExtraData),
        (nm, ops) ∈ ms → (op, d) ∈ ops → op ≠ "exact" →
        (nm ++ "_" ++ op) ∈ out.map Prod.fst := by
  intro ms
  induction ms with
  | nil =>
    intro fields out hok nm ops op d hm
    cases hm
  | cons p rest ih =>
    intro fields out hok nm ops op d hm hmo hne
    rcases p with ⟨nm0, ops0⟩
    cases hg : dictGet lookup nm0 with
    | none =>
      rw [extrasPass_cons_none env lookup nm0 ops0 rest fields hg] at hok
      simp at hok
    | some field =>
      rw [extrasPass_cons_some env lookup nm0 ops0 rest fields field hg] at hok
      cases hin : extrasInner env field nm0 ops0 fields with
      | ok fields2 =>
        rw [hin] at hok
        rcases List.mem_cons.1 hm with heq | hm2
        · have h1 : nm = nm0 := congrArg Prod.fst heq
          have h2 : ops = ops0 := congrArg Prod.snd heq
          subst h1; subst h2
          exact extrasPass_mono env lookup _ rest fields2 out hok
            (extrasInner_adds env field nm ops fields fields2 hin op d hmo hne)
        · exact ih _ _ hok nm ops op d hm2 hmo hne
      | error e =>
        rw [hin] at hok
        simp at hok

theorem extrasPass_keys {τ : Type} (env : FieldEnv τ) (lookup : List (String × ModelField))
    (k : String) :
    ∀ (ms : M2MExtras) (fields out : List (String × τ)),
      extrasPass env lookup ms fields = .ok out →
      k ∈ out.map Prod.fst →
      k ∈ fields.map Prod.fst ∨
        ∃ p ∈ ms, p.1 ∈ lookup.map Prod.fst ∧
          ∃ od ∈ p.2, od.1 ≠ "exact" ∧ k = p.1 ++ "_" ++ od.1 := by
  intro ms
  induction ms with
  | nil =>
    intro fields out hok hk
    simp only [extrasPass, Except.ok.injEq] at hok
    subst hok
    exact Or.inl hk
  | cons p rest ih =>
    intro fields out hok hk
    rcases p with ⟨nm0, ops0⟩
    cases hg : dictGet lookup nm0 with
    | none =>
      rw [extrasPass_cons_none env lookup nm0 ops0 rest fields hg] at hok
      simp at hok
    | some field =>
      rw [extrasPass_cons_some env lookup nm0 ops0 rest fields field hg] at hok
      cases hin : extrasInner env field nm0 ops0 fields with
      | ok fields2 =>
        rw [hin] at hok
        rcases ih _ _ hok hk with h2 | ⟨p2, hm2, hl2, hw2⟩
        · rcases extrasInner_keys env field nm0 k ops0 fields fields2 hin h2 with
            h3 | ⟨od, hmo, hne, hk3⟩
          · exact Or.inl h3
          · exact Or.inr ⟨(nm0, ops0), List.mem_cons_self _ _,
              mem_keys_of_dictGet_some hg, od, hmo, hne, hk3⟩
        · exact Or.inr ⟨p2, List.mem_cons_of_mem _ hm2, hl2, hw2⟩
      | error e =>
        rw [hin] at hok
        simp at hok

theorem extrasPass_error_of_missing {τ : Type} (env : FieldEnv τ)
    (lookup : List (String × ModelField)) :
    ∀ (ms : M2MExtras) (fields : List (String × τ)) (nm : String) (ops : M2MOps),
      (nm, ops) ∈ ms → dictGet lookup nm = none →
      ∃ e, extrasPass env lookup ms fields = .error e := by
  intro ms
  induction ms with
  | nil =>
    intro fields nm ops hm
    cases hm
  | cons p rest ih =>
    intro fields nm ops hm hnone
    rcases p with ⟨nm0, ops0⟩
    cases hg : dictGet lookup nm0 with
    | none =>
      exact ⟨.graphQLError ("Error adding extras for " ++ nm0 ++ " in model f" ++
        env.modelName ++ ". Field " ++ nm0 ++ " does not exist."),
        extrasPass_cons_none env lookup nm0 ops0 rest fields hg⟩
    | some field =>
      rcases List.mem_cons.1 hm with heq | hm2
      · have h1 : nm = nm0 := congrArg Prod.fst heq
        rw [h1, hg] at hnone
        cases hnone
      · cases hin : extrasInner env field nm0 ops0 fields with
        | ok fields2 =>
          obtain ⟨e, he⟩ := ih fields2 nm ops hm2 hnone
          refine ⟨e, ?_⟩
          rw [extrasPass_cons_some env lookup nm0 ops0 rest fields field hg, hin]
          exact he
        | error e =>
          refine ⟨e, ?_⟩
          rw [extrasPass_cons_some env lookup nm0 ops0 rest fields field hg, hin]

theorem get_input_eq {τ : Type} (env : FieldEnv τ) (only excl opt req : List String)
    (m2m : M2MExtras) (fk : FkExtras) :
    get_input_fields_for_model env only excl opt req m2m fk =
      extrasPass env (basePass env only excl opt req m2m fk env.model_fields [] []).2 m2m
        (basePass env only excl opt req m2m fk env.model_fields [] []).1 := rfl

theorem get_all_optional_eq {τ : Type} (env : FieldEnv τ) (only excl : List String)
    (m2m : M2MExtras) (fk : FkExtras) :
    get_all_optional_input_fields_for_model env only excl m2m fk =
      extrasPassAllOpt env (basePassAllOpt env only excl m2m fk env.model_fields [] []).2 m2m
        (basePassAllOpt env only excl m2m fk env.model_fields [] []).1 := rfl

theorem extrasInnerAllOpt_eq {τ : Type} (env : FieldEnv τ) (field : ModelField) (name : String) :
    ∀ (ops : M2MOps) (fields : List (String × τ)),
      extrasInnerAllOpt env field name ops fields = extrasInner env field name ops fields := by
  intro ops
  induction ops with
  | nil => intro fields; rfl
  | cons od rest ih =>
    intro fields
    rcases od with ⟨op, data⟩
    by_cases hex : op = "exact"
    · rw [extrasInnerAllOpt, extrasInner, if_pos hex, if_pos hex, ih]
    · rw [extrasInnerAllOpt, extrasInner, if_neg hex, if_neg hex]
      cases hcm : env.convert_m2m field data.asConf with
      | some f => exact ih _
      | none =>
        cases hgg : dictGet fields name with
        | some f => exact ih _
        | none => rfl

theorem extrasPassAllOpt_eq {τ : Type} (env : FieldEnv τ)
    (lookup : List (String × ModelField)) :
    ∀ (ms : M2MExtras) (fields : List (String × τ)),
      extrasPassAllOpt env lookup ms fields = extrasPass env lookup ms fields := by
  intro ms
  induction ms with
  | nil => intro fields; rfl
  | cons p rest ih =>
    intro fields
    rcases p with ⟨nm, ops⟩
    rw [extrasPassAllOpt, extrasPass]
    cases hg : dictGet lookup nm with
    | none => rfl
    | some field =>
      change (match extrasInnerAllOpt env field nm ops fields with
        | Except.ok fields2 => extrasPassAllOpt env lookup rest fields2
        | Except.error e => Except.error e) =
        (match extrasInner env field nm ops fields with
        | Except.ok fields2 => extrasPass env lookup rest fields2
        | Except.error e => Except.error e)
      rw [extrasInnerAllOpt_eq env field nm ops fields]
      cases hin : extrasInner env field nm ops fields with
      | ok fields2 => exact ih fields2
      | error e => rfl

theorem basePassAllOpt_eq {τ : Type} (env : FieldEnv τ)
    (only excl opt req : List String) (m2m : M2MExtras) (fk : FkExtras) :
    ∀ (fs : List ModelField) (fields : List (String × τ))
      (lookup : List (String × ModelField)),
      (∀ mf ∈ fs, opt.contains mf.name = true) →
      basePassAllOpt env only excl m2m fk fs fields lookup =
        basePass env only excl opt req m2m fk fs fields lookup := by
  intro fs
  induction fs with
  | nil => intro fields lookup h; rfl
  | cons mf rest ih =>
    intro fields lookup h
    have hopt : opt.contains mf.name = true := h mf (List.mem_cons_self _ _)
    have hrest : ∀ mf2 ∈ rest, opt.contains mf2.name = true :=
      fun mf2 hm => h mf2 (List.mem_cons_of_mem _ hm)
    cases hpk : mf.primary_key with
    | true =>
      rw [basePassAllOpt, basePass, if_pos hpk, if_pos hpk, ih _ _ hrest]
    | false =>
      have hpkne : ¬(mf.primary_key = true) := by rw [hpk]; exact Bool.false_ne_true
      rw [basePassAllOpt, basePass, if_neg hpkne, if_neg hpkne]
      cases hsk : shouldSkip only excl mf.name with
      | true =>
        exact ih _ _ hrest
      | false =>
        rw [if_pos hopt]
        exact ih _ _ hrest

/-- C9: the all-optional builder equals the main builder invoked with
every reflected field name listed as optional: the forced `False`
tri-state coincides with the optional-membership branch for every
processed field, the required list being irrelevant, and the extras
passes are identical. -/
theorem c9_all_optional_equiv {τ : Type} (env : FieldEnv τ) (only excl req : List String)
    (m2m : M2MExtras) (fk : FkExtras) :
    get_all_optional_input_fields_for_model env only excl m2m fk =
      get_input_fields_for_model env only excl (env.model_fields.map ModelField.name) req
        m2m fk := by
  rw [get_all_optional_eq, get_input_eq]
  rw [basePassAllOpt_eq env only excl (env.model_fields.map ModelField.name) req m2m fk
    env.model_fields [] [] (fun mf hm => contains_of_mem (List.mem_map_of_mem _ hm))]
  rw [extrasPassAllOpt_eq]

/-- C2 (amended): every key of a successful output either equals the
name of a non-primary-key reflected field that passed the
only/exclude/no-backref filtering, or is name + "_" + operation for a
declared non-"exact" many-to-many extra operation on a
non-primary-key reflected field — which need not itself have passed
the filtering, since the extras pass consults the lookup of all
non-primary-key fields, filtered or not. -/
theorem c2_output_keys {τ : Type} (env : FieldEnv τ) (only excl opt req : List String)
    (m2m : M2MExtras) (fk : FkExtras) (out : List (String × τ)) (k : String)
    (hok : get_input_fields_for_model env only excl opt req m2m fk = .ok out)
    (hk : k ∈ out.map Prod.fst) :
    (∃ mf ∈ env.model_fields, passesFiltering only excl mf ∧ k = mf.name) ∨
    (∃ p ∈ m2m, (∃ mf ∈ env.model_fields, mf.primary_key = false ∧ p.1 = mf.name) ∧
      ∃ od ∈ p.2, od.1 ≠ "exact" ∧ k = p.1 ++ "_" ++ od.1) := by
  rw [get_input_eq] at hok
  rcases extrasPass_keys env _ k m2m _ out hok hk with h1 | ⟨p, hp, hl, od, hmo, hne, hk2⟩
  · rcases basePass_fields_keys env only excl opt req m2m fk k env.model_fields [] [] h1 with
      h2 | hw
    · simp at h2
    · exact Or.inl hw
  · rcases basePass_lookup_keys env only excl opt req m2m fk p.1 env.model_fields [] [] hl with
      h2 | hw
    · simp at h2
    · exact Or.inr ⟨p, hp, hw, od, hmo, hne, hk2⟩

/-- C2 counterexample: with "tags" excluded and an extras entry
{"tags": {"add": True}}, the output holds the single key "tags_add",
yet "tags" did not pass the exclusion filtering, so the key is not
derived from a field that passed filtering — the invariant of the
claim fails as stated. -/
theorem c2_counterexample :
    get_input_fields_for_model envTags [] ["tags"] [] []
      [("tags", [("add", ExtraData.boolData true)])] [] = .ok [("tags_add", 2)] ∧
    ¬ ((∃ mf ∈ envTags.model_fields,
          passesFiltering [] ["tags"] mf ∧ "tags_add" = mf.name) ∨
       (∃ p ∈ [("tags", [("add", ExtraData.boolData true)])],
          (∃ mf ∈ envTags.model_fields, passesFiltering [] ["tags"] mf ∧ p.1 = mf.name) ∧
          ∃ od ∈ p.2, od.1 ≠ "exact" ∧ "tags_add" = p.1 ++ "_" ++ od.1)) := by
  constructor
  · decide
  · decide

/-- C2 witness: the amended theorem applied at the counterexample
input, locating the key "tags_add" at the non-primary-key reflected
field "tags". -/
theorem c2_output_keys_witness :
    (∃ mf ∈ envTags.model_fields, passesFiltering [] ["tags"] mf ∧ "tags_add" = mf.name) ∨
    (∃ p ∈ [("tags", [("add", ExtraData.boolData true)])],
      (∃ mf ∈ envTags.model_fields, mf.primary_key = false ∧ p.1 = mf.name) ∧
      ∃ od ∈ p.2, od.1 ≠ "exact" ∧ "tags_add" = p.1 ++ "_" ++ od.1) :=
  c2_output_keys envTags [] ["tags"] [] [] [("tags", [("add", ExtraData.boolData true)])] []
    [("tags_add", 2)] "tags_add" (by decide) (by decide)

/-- C5 (amended): if any extras entry names a field absent from the
non-primary-key reflected fields, the call fails with an error; when
the first extras entry is such an entry, the error is the schema
GraphQLError naming that field and the model; and on success every
declared operation other than "exact" of every entry contributes the
output key name + "_" + operation. -/
theorem c5_extras_validation {τ : Type} (env : FieldEnv τ) (only excl opt req : List String)
    (m2m : M2MExtras) (fk : FkExtras) :
    (∀ (nm : String) (ops : M2MOps), (nm, ops) ∈ m2m →
      (∀ mf ∈ env.model_fields, mf.primary_key = false → mf.name ≠ nm) →
      ∃ e, get_input_fields_for_model env only excl opt req m2m fk = .error e) ∧
    (∀ (nm : String) (ops : M2MOps) (rest : M2MExtras), m2m = (nm, ops) :: rest →
      (∀ mf ∈ env.model_fields, mf.primary_key = false → mf.name ≠ nm) →
      get_input_fields_for_model env only excl opt req m2m fk =
        .error (.graphQLError ("Error adding extras for " ++ nm ++ " in model f" ++
          env.modelName ++ ". Field " ++ nm ++ " does not exist."))) ∧
    (∀ (out : List (String × τ)) (nm : String) (ops : M2MOps) (op : String) (d : ExtraData),
      get_input_fields_for_model env only excl opt req m2m fk = .ok out →
      (nm, ops) ∈ m2m → (op, d) ∈ ops → op ≠ "exact" →
      (nm ++ "_" ++ op) ∈ out.map Prod.fst) := by
  have hnone : ∀ nm : String,
      (∀ mf ∈ env.model_fields, mf.primary_key = false → mf.name ≠ nm) →
      dictGet (basePass env only excl opt req m2m fk env.model_fields [] []).2 nm = none := by
    intro nm habs
    rw [dictGet_none_iff]
    intro hmem
    rcases basePass_lookup_keys env only excl opt req m2m fk nm env.model_fields [] [] hmem with
      h2 | ⟨mf, hm, hpk, hknm⟩
    · simp at h2
    · exact habs mf hm hpk hknm.symm
  refine ⟨?_, ?_, ?_⟩
  · intro nm ops hmem habs
    rw [get_input_eq]
    exact extrasPass_error_of_missing env _ m2m _ nm ops hmem (hnone nm habs)
  · intro nm ops rest hm2m habs
    rw [get_input_eq]
    have h := hnone nm habs
    rw [hm2m]
    exact extrasPass_cons_none env _ nm ops rest _ (by rw [← hm2m]; exact h)
  · intro out nm ops op d hok hmem hmo hne
    rw [get_input_eq] at hok
    exact extrasPass_adds env _ m2m _ out hok nm ops op d hmem hmo hne

/-- C5 counterexample: with two extras entries "y" and "z", both
naming missing fields, the call fails with the schema error for "y",
the first entry; for the entry "z" the claim as stated — a failure
with the schema error naming "z" — is false. -/
theorem c5_counterexample :
    ("z", ([] : M2MOps)) ∈ [("y", ([] : M2MOps)), ("z", ([] : M2MOps))] ∧
    (∀ mf ∈ envNoFields.model_fields, mf.name ≠ "z") ∧
    get_input_fields_for_model envNoFields [] [] [] []
      [("y", []), ("z", [])] [] =
      .error (.graphQLError "Error adding extras for y in model fM. Field y does not exist.") ∧
    get_input_fields_for_model envNoFields [] [] [] []
      [("y", []), ("z", [])] [] ≠
      .error (.graphQLError "Error adding extras for z in model fM. Field z does not exist.") := by
  refine ⟨by decide, by decide, by decide, by decide⟩

/-- C5 witness: the success part applied at the spec example
m2m_extras = {"tags": {"exact": True, "add": True}} — the output holds
both "tags" and "tags_add" — and the first-entry error part applied at
a missing field "y". -/
theorem c5_extras_validation_witness :
    ("tags" ++ "_" ++ "add") ∈
      ([("tags", 1), ("tags_add", 2)] : List (String × Nat)).map Prod.fst ∧
    get_input_fields_for_model envNoFields [] [] [] [] [("y", [])] [] =
      .error (.graphQLError ("Error adding extras for " ++ "y" ++ " in model f" ++
        envNoFields.modelName ++ ". Field " ++ "y" ++ " does not exist.")) :=
  ⟨(c5_extras_validation envTags [] [] [] []
      [("tags", [("exact", ExtraData.boolData true), ("add", ExtraData.boolData true)])] []).2.2
    [("tags", 1), ("tags_add", 2)] "tags"
    [("exact", ExtraData.boolData true), ("add", ExtraData.boolData true)]
    "add" (ExtraData.boolData true) (by decide) (by decide) (by decide) (by decide),
   (c5_extras_validation envNoFields [] [] [] [] [("y", [])] []).2.1
    "y" [] [] rfl (by decide)⟩

theorem mem_of_contains {l : List String} {a : String} (h : l.contains a = true) : a ∈ l := by
  induction l with
  | nil => cases h
  | cons b rest ih =>
    simp only [List.contains_cons, Bool.or_eq_true] at h
    rcases h with h | h
    · exact List.mem_cons.2 (Or.inl (by simpa using h))
    · exact List.mem_cons_of_mem _ (ih h)

theorem basePass_tri (fs0 : List ModelField) (only excl opt req : List String)
    (m2m : M2MExtras) (fk : FkExtras) (n : String) :
    ∀ (fs : List ModelField) (fields : List (String × Option Bool))
      (lookup : List (String × ModelField)),
      (dictGet fields n = some (triState opt req n) ∨
        (∃ mf ∈ fs, mf.name = n ∧ mf.primary_key = false) ∧
          shouldSkip only excl n = false) →
      dictGet ((basePass (triEnv fs0) only excl opt req m2m fk fs fields lookup).1) n =
        some (triState opt req n) := by
  intro fs
  induction fs with
  | nil =>
    intro fields lookup h
    rcases h with h | ⟨⟨mf, hm, _⟩, _⟩
    · exact h
    · cases hm
  | cons mf rest ih =>
    intro fields lookup h
    cases hpk : mf.primary_key with
    | true =>
      rw [basePass, if_pos hpk]
      apply ih
      rcases h with h | ⟨⟨mf2, hm2, hn2, hp2⟩, hskn⟩
      · exact Or.inl h
      · rcases List.mem_cons.1 hm2 with heq | hm3
        · rw [heq] at hp2; rw [hpk] at hp2; cases hp2
        · exact Or.inr ⟨⟨mf2, hm3, hn2, hp2⟩, hskn⟩
    | false =>
      have hpkne : ¬(mf.primary_key = true) := by rw [hpk]; exact Bool.false_ne_true
      rw [basePass, if_neg hpkne]
      cases hs : shouldSkip only excl mf.name with
      | true =>
        apply ih
        rcases h with h | ⟨⟨mf2, hm2, hn2, hp2⟩, hskn⟩
        · exact Or.inl h
        · rcases List.mem_cons.1 hm2 with heq | hm3
          · rw [heq] at hn2
            rw [hn2] at hs
            rw [hs] at hskn
            cases hskn
          · exact Or.inr ⟨⟨mf2, hm3, hn2, hp2⟩, hskn⟩
      | false =>
        apply ih
        by_cases hname : mf.name = n
        · left
          rw [dictGet_dictInsert, if_pos hname, hname]
          rfl
        · rcases h with h | ⟨⟨mf2, hm2, hn2, hp2⟩, hskn⟩
          · left
            rw [dictGet_dictInsert, if_neg hname]
            exact h
          · rcases List.mem_cons.1 hm2 with heq | hm3
            · rw [heq] at hn2
              exact absurd hn2 hname
            · exact Or.inr ⟨⟨mf2, hm3, hn2, hp2⟩, hskn⟩

/-- C8: for any non-skipped field (not the primary key, not filtered
out) the tri-state the builder passes to the converter — made
observable by a converter that returns its tri-state argument — is
False when the field name is in the optional list, else True when it
is in the required list, else None; in particular a name present in
both lists yields False, optional winning. -/
theorem c8_tri_state (fs : List ModelField) (mf : ModelField)
    (only excl opt req : List String) (fk : FkExtras)
    (hmem : mf ∈ fs) (hpk : mf.primary_key = false)
    (hsk : shouldSkip only excl mf.name = false) :
    ∃ out, get_input_fields_for_model (triEnv fs) only excl opt req [] fk = .ok out ∧
      dictGet out mf.name =
        some (if opt.contains mf.name then some false
          else if req.contains mf.name then some true else none) ∧
      (opt.contains mf.name = true → dictGet out mf.name = some (some false)) := by
  refine ⟨(basePass (triEnv fs) only excl opt req [] fk fs [] []).1, ?_, ?_, ?_⟩
  · rw [get_input_eq]
    rfl
  · exact basePass_tri fs only excl opt req [] fk mf.name fs [] []
      (Or.inr ⟨⟨mf, hmem, rfl, hpk⟩, hsk⟩)
  · intro hc
    have h2 := basePass_tri fs only excl opt req [] fk mf.name fs [] []
      (Or.inr ⟨⟨mf, hmem, rfl, hpk⟩, hsk⟩)
    rw [h2]
    have hmem2 : mf.name ∈ opt := mem_of_contains hc
    simp [triState, hc, hmem2]

/-- C8 witness: the theorem at a model with the single field "name"
listed in both the optional and the required lists: the recorded
tri-state is False, optional winning. -/
theorem c8_tri_state_witness :
    ∃ out, get_input_fields_for_model (triEnv [⟨"name", false⟩]) [] [] ["name"] ["name"] [] []
        = .ok out ∧
      dictGet out "name" =
        some (if (["name"] : List String).contains "name" then some false
          else if (["name"] : List String).contains "name" then some true else none) ∧
      ((["name"] : List String).contains "name" = true →
        dictGet out "name" = some (some false)) :=
  c8_tri_state [⟨"name", false⟩] ⟨"name", false⟩ [] [] ["name"] ["name"] []
    (by decide) rfl (by decide)
